import Mathlib

/-
  Verification of the GameCube/Wii DOL header parser and validator.

  The development shallowly embeds the parser (`parseSections`, `parseHeader`
  with its inline BSS carving sweep), the validator (`validateHeader`) and the
  caller-facing sniffing entry (`is_valid_for_data`).  Byte buffers are
  modelled as `List Nat` (each entry a byte, read mod 256); Python's unbounded
  integers arising from 32-bit fields are modelled as `Nat` (fields are below
  2 ^ 32, sums below 2 ^ 33, so no wrap-around occurs anywhere in the source).
  Python's stable `list.sort(key = ...)` is modelled by a stable insertion
  sort, which computes the same list.  The fallible top-level decode (struct
  unpacking raises on inputs shorter than 0xE4 bytes) is modelled with
  `Option`.
-/

namespace Dol

/-- An initialized (text or data) section: `{"offset": o, "address": a, "size": s}`. -/
structure Section where
  offset : Nat
  address : Nat
  size : Nat
deriving DecidableEq, Repr

/-- A BSS section: `{"address": a, "size": s}` (no file offset). -/
structure BssSection where
  address : Nat
  size : Nat
deriving DecidableEq, Repr

/-- The decoded header. -/
structure Header where
  textSections : List Section
  dataSections : List Section
  bssSections : List BssSection
  entrypoint : Nat
deriving DecidableEq, Repr

/-- `parseSections` (src lines 5-15): walk the parallel slot arrays in order,
stopping at the first slot whose offset field is zero. -/
def parseSections : List Nat → List Nat → List Nat → List Section
  | o :: offs, a :: addrs, s :: szs =>
    if o = 0 then [] else ⟨o, a, s⟩ :: parseSections offs addrs szs
  | _, _, _ => []

/-- One byte of the buffer (buffers model Python `bytes`, entries below 256). -/
def byteAt (data : List Nat) (i : Nat) : Nat := data.getD i 0 % 256

/-- A big-endian unsigned 32-bit field, as read by `struct.unpack(">L", ...)`. -/
def word (data : List Nat) (off : Nat) : Nat :=
  byteAt data off * 0x1000000 + byteAt data (off + 1) * 0x10000 +
    byteAt data (off + 2) * 0x100 + byteAt data (off + 3)

/-- Stable insert for the insertion sort modelling Python's stable `list.sort`. -/
def insertByKey {α : Type} (key : α → Nat) (x : α) : List α → List α
  | [] => [x]
  | y :: ys => if key x ≤ key y then x :: y :: ys else y :: insertByKey key x ys

/-- Stable sort by a `Nat` key; computes the same list as Python's
`list.sort(key = ...)` (both are stable sorts by the same key). -/
def sortByKey {α : Type} (key : α → Nat) : List α → List α
  | [] => []
  | x :: xs => insertByKey key x (sortByKey key xs)

/-- The BSS carving sweep of `parseHeader` (src lines 35-67).  `current_end`
is fixed; the loop walks the sorted obstacle list updating `current_start`.
A `break` in the source leaves `current_start ≥ current_end`, so the final
flush (src lines 63-67) emits nothing on those paths; they therefore return
their emitted fragments directly, and the flush appears in the nil case. -/
def carveLoop (current_end current_start : Nat) (obstacles : List Section) :
    List BssSection :=
  match obstacles with
  | [] =>
    if current_start < current_end then
      [⟨current_start, current_end - current_start⟩]
    else []
  | c :: rest =>
    if c.address ≤ current_start ∧ current_end ≤ c.address + c.size then
      -- carving contains all of carved: annihilated, break
      []
    else if c.address ≤ current_start ∧ current_start < c.address + c.size ∧
        c.address + c.size < current_end then
      -- overlapping from the left
      if current_end ≤ c.address + c.size then []
      else carveLoop current_end (c.address + c.size) rest
    else if current_start < c.address then
      -- overlapping from the right or contained
      ⟨current_start, c.address - current_start⟩ ::
        (if current_end ≤ min (c.address + c.size) current_end then []
         else carveLoop current_end (min (c.address + c.size) current_end) rest)
    else
      -- no overlap branch taken; early-out check with unchanged start
      if current_end ≤ current_start then []
      else carveLoop current_end current_start rest

/-- The BSS derivation of `parseHeader` (src lines 32-67): sort the
concatenated text and data sections by address and sweep. -/
def carve (nominalStart nominalEnd : Nat) (obstacles : List Section) :
    List BssSection :=
  carveLoop nominalEnd nominalStart (sortByKey Section.address obstacles)

/-- The body of `parseHeader` (src lines 18-77), defined on any buffer;
meaningful for buffers of length at least 0xE4 (see `parseHeader`). -/
def parseHeaderCore (data : List Nat) : Header :=
  let textOffsets := (List.range 7).map fun i => word data (0x00 + 4 * i)
  let dataOffsets := (List.range 11).map fun i => word data (0x1c + 4 * i)
  let textAddresses := (List.range 7).map fun i => word data (0x48 + 4 * i)
  let dataAddresses := (List.range 11).map fun i => word data (0x64 + 4 * i)
  let textSizes := (List.range 7).map fun i => word data (0x90 + 4 * i)
  let dataSizes := (List.range 11).map fun i => word data (0xac + 4 * i)
  let bssAddress := word data 0xd8
  let bssSize := word data 0xdc
  let entrypoint := word data 0xe0
  let textSections := parseSections textOffsets textAddresses textSizes
  let dataSections := parseSections dataOffsets dataAddresses dataSizes
  let bssSections :=
    if bssAddress ≠ 0 then
      carve bssAddress (bssAddress + bssSize) (textSections ++ dataSections)
    else []
  { textSections := textSections, dataSections := dataSections,
    bssSections := bssSections, entrypoint := entrypoint }

/-- `parseHeader` (src lines 18-77).  `struct.unpack` raises on a short
buffer (the last field needs bytes up to 0xE4), modelled as `none`; on any
buffer of at least 0xE4 bytes the decode is `parseHeaderCore`. -/
def parseHeader (data : List Nat) : Option Header :=
  if data.length < 0xe4 then none else some (parseHeaderCore data)

/-- The address/size view of an initialized section, as used by the
address-space checks of the validator. -/
def Section.addrSize (s : Section) : BssSection := ⟨s.address, s.size⟩

/-- `allSections = initializedSections + bssSections` (src line 87), viewed
through the address/size fields that the validator reads. -/
def allSectionsOf (h : Header) : List BssSection :=
  (h.textSections ++ h.dataSections).map Section.addrSize ++ h.bssSections

/-- Adjacent-pair check over a list, as the validator's
`for i in range(len(l) - 1)` loops with early `return False`. -/
def chainOk {α : Type} (ok : α → α → Bool) : List α → Bool
  | x :: y :: rest => ok x y && chainOk ok (y :: rest)
  | _ => true

/-- Validator check (src lines 90-91): at least one text section. -/
def hasTextSection (h : Header) : Bool :=
  decide (1 ≤ h.textSections.length)

/-- Validator check (src lines 94-96): initialized sections lie inside the file. -/
def sectionsInFile (h : Header) (filesize : Nat) : Bool :=
  (h.textSections ++ h.dataSections).all fun s =>
    decide (s.offset + s.size ≤ filesize)

/-- Validator check (src lines 99-103): all sections load into valid memory. -/
def sectionsInMemory (h : Header) : Bool :=
  (allSectionsOf h).all fun s =>
    decide (0x80000000 ≤ s.address ∧ s.address < 0x81800000) &&
      decide (0x80000000 ≤ s.address + s.size ∧ s.address + s.size ≤ 0x81800000)

/-- Validator check (src lines 106-112): no file-offset overlap between
initialized sections, checked on a copy sorted by offset. -/
def noOffsetOverlap (h : Header) : Bool :=
  chainOk (fun a b => decide (a.offset + a.size ≤ b.offset))
    (sortByKey Section.offset (h.textSections ++ h.dataSections))

/-- Validator check (src lines 115-122): no address-space overlap between any
sections, checked on a copy sorted by address. -/
def noAddressOverlap (h : Header) : Bool :=
  chainOk (fun a b => decide (a.address + a.size ≤ b.address))
    (sortByKey BssSection.address (allSectionsOf h))

/-- Validator check (src lines 125-131): the entrypoint lies in some text
section's half-open address extent. -/
def entrypointInText (h : Header) : Bool :=
  h.textSections.any fun s =>
    decide (s.address ≤ h.entrypoint ∧ h.entrypoint < s.address + s.size)

/-- `validateHeader` (src lines 79-133): the conjunction of all checks (the
source short-circuits with early `return False`, which computes the same
boolean). -/
def validateHeader (h : Header) (filesize : Nat) : Bool :=
  hasTextSection h && sectionsInFile h filesize && sectionsInMemory h &&
    noOffsetOverlap h && noAddressOverlap h && entrypointInText h

/-- `DOLView.is_valid_for_data` (src lines 143-151).  `data.read(0, 0xe4)`
returns at most 0xE4 bytes from the start, modelled by `take`; a short read
returns `False` before parsing. -/
def is_valid_for_data (data : List Nat) : Bool :=
  let header_data := data.take 0xe4
  if header_data.length < 0xe4 then false
  else
    match parseHeader header_data with
    | none => false
    | some header => validateHeader header data.length

/-- A concrete valid layout: one text section `[0x80003100, 0x80003300)`
backed by file bytes `[0x100, 0x300)`, one BSS section, entrypoint at the
start of the text section. -/
def exHeaderOk : Header :=
  { textSections := [⟨0x100, 0x80003100, 0x200⟩], dataSections := [],
    bssSections := [⟨0x80003400, 0x100⟩], entrypoint := 0x80003100 }

/-- A layout whose single text section has size zero and whose entrypoint
equals that section's address. -/
def hdrZ : Header :=
  { textSections := [⟨0x100, 0x80000000, 0⟩], dataSections := [],
    bssSections := [], entrypoint := 0x80000000 }

/-- A layout whose entrypoint is one past the end of its only text section. -/
def hdrPastEnd : Header :=
  { textSections := [⟨0x100, 0x80003100, 0x200⟩], dataSections := [],
    bssSections := [], entrypoint := 0x80003300 }

/-- A layout whose entrypoint is the address of its only (positive-size)
text section. -/
def hdrAtStart : Header :=
  { textSections := [⟨0x100, 0x80003100, 0x200⟩], dataSections := [],
    bssSections := [], entrypoint := 0x80003100 }

/-- A header buffer that is all zero except for a nonzero BSS address field
(byte 0xD8) and BSS size field (byte 0xDB area): BSS address 1, BSS size 2,
no text or data slots. -/
def bufBssOnly : List Nat :=
  List.replicate 0xd8 0 ++ [0, 0, 0, 1] ++ [0, 0, 0, 2] ++ [0, 0, 0, 0]

/-! ### Properties of the stable sort -/

theorem mem_insertByKey {α : Type} (key : α → Nat) (x : α) (l : List α) (a : α) :
    a ∈ insertByKey key x l ↔ a = x ∨ a ∈ l := by
  induction l with
  | nil => simp [insertByKey]
  | cons y ys ih =>
    simp only [insertByKey]
    split_ifs with h
    · simp [List.mem_cons]
    · simp only [List.mem_cons, ih]
      tauto

theorem mem_sortByKey {α : Type} (key : α → Nat) (l : List α) (a : α) :
    a ∈ sortByKey key l ↔ a ∈ l := by
  induction l with
  | nil => simp [sortByKey]
  | cons x xs ih => simp [sortByKey, mem_insertByKey, ih]

theorem pairwise_insertByKey {α : Type} (key : α → Nat) (x : α) (l : List α)
    (hl : l.Pairwise fun u v => key u ≤ key v) :
    (insertByKey key x l).Pairwise fun u v => key u ≤ key v := by
  induction l with
  | nil => simp [insertByKey]
  | cons y ys ih =>
    rw [List.pairwise_cons] at hl
    simp only [insertByKey]
    split_ifs with h
    · rw [List.pairwise_cons]
      refine ⟨fun z hz => ?_, List.pairwise_cons.mpr hl⟩
      rcases List.mem_cons.mp hz with rfl | hz'
      · exact h
      · exact le_trans h (hl.1 z hz')
    · rw [List.pairwise_cons]
      refine ⟨fun z hz => ?_, ih hl.2⟩
      rcases (mem_insertByKey key x ys z).mp hz with rfl | hz'
      · omega
      · exact hl.1 z hz'

theorem sortByKey_sorted {α : Type} (key : α → Nat) (l : List α) :
    (sortByKey key l).Pairwise fun u v => key u ≤ key v := by
  induction l with
  | nil => simp [sortByKey]
  | cons x xs ih => exact pairwise_insertByKey key x _ ih

theorem pairwise_imp_of_mem {α : Type} {R S : α → α → Prop} {l : List α}
    (h : ∀ x ∈ l, ∀ y ∈ l, R x y → S x y) (hl : l.Pairwise R) : l.Pairwise S := by
  induction l with
  | nil => exact List.Pairwise.nil
  | cons x xs ih =>
    rw [List.pairwise_cons] at hl ⊢
    refine ⟨fun y hy => h x (List.mem_cons_self x xs) y (List.mem_cons_of_mem x hy)
      (hl.1 y hy), ?_⟩
    exact ih (fun u hu v hv => h u (List.mem_cons_of_mem x hu) v
      (List.mem_cons_of_mem x hv)) hl.2

/-! ### Properties of the carving sweep -/

/-- Every fragment emitted by the sweep starts at or after the live window
start and has positive size. -/
theorem carveLoop_mem (e : Nat) (obs : List Section) :
    ∀ s, ∀ f ∈ carveLoop e s obs, s ≤ f.address ∧ 0 < f.size := by
  induction obs with
  | nil =>
    intro s f hf
    simp only [carveLoop] at hf
    split_ifs at hf with h
    · simp only [List.mem_singleton] at hf
      subst hf
      exact ⟨Nat.le_refl s, by show 0 < e - s; omega⟩
    · simp at hf
  | cons c rest ih =>
    intro s f hf
    simp only [carveLoop] at hf
    split_ifs at hf with h1 h2 h2e h3 h3e h4e
    · simp at hf
    · simp at hf
    · obtain ⟨ha, hb⟩ := ih _ f hf
      exact ⟨by omega, hb⟩
    · simp only [List.mem_singleton] at hf
      subst hf
      exact ⟨Nat.le_refl s, by show 0 < c.address - s; omega⟩
    · rcases List.mem_cons.mp hf with rfl | hf'
      · exact ⟨Nat.le_refl s, by show 0 < c.address - s; omega⟩
      · obtain ⟨ha, hb⟩ := ih _ f hf'
        exact ⟨by omega, hb⟩
    · simp at hf
    · exact ih s f hf

/-- The sweep's fragments are separated in ascending address order: each
fragment ends at or before the next one starts. -/
theorem carveLoop_chain (e : Nat) (obs : List Section) :
    ∀ s, (carveLoop e s obs).Pairwise fun f g => f.address + f.size ≤ g.address := by
  induction obs with
  | nil =>
    intro s
    simp only [carveLoop]
    split_ifs <;> simp
  | cons c rest ih =>
    intro s
    simp only [carveLoop]
    split_ifs with h1 h2 h2e h3 h3e h4e
    · simp
    · simp
    · exact ih _
    · simp
    · rw [List.pairwise_cons]
      refine ⟨fun g hg => ?_, ih _⟩
      obtain ⟨hga, _⟩ := carveLoop_mem e rest _ g hg
      show s + (c.address - s) ≤ g.address
      omega
    · simp
    · exact ih _

/-- No fragment emitted by the sweep overlaps any obstacle, provided the
obstacles are sorted by address (as `parseHeader` sorts them). -/
theorem carveLoop_disjoint (e : Nat) (obs : List Section)
    (hsorted : obs.Pairwise fun o1 o2 => o1.address ≤ o2.address) :
    ∀ s, ∀ f ∈ carveLoop e s obs, ∀ o ∈ obs,
      f.address + f.size ≤ o.address ∨ o.address + o.size ≤ f.address := by
  induction obs with
  | nil =>
    intro s f _ o ho
    simp at ho
  | cons c rest ih =>
    rw [List.pairwise_cons] at hsorted
    obtain ⟨hhead, htail⟩ := hsorted
    intro s f hf o ho
    simp only [carveLoop] at hf
    split_ifs at hf with h1 h2 h2e h3 h3e h4e
    · simp at hf
    · simp at hf
    · rcases List.mem_cons.mp ho with rfl | ho'
      · right
        obtain ⟨ha, _⟩ := carveLoop_mem e rest _ f hf
        omega
      · exact ih htail _ f hf o ho'
    · simp only [List.mem_singleton] at hf
      subst hf
      left
      rcases List.mem_cons.mp ho with rfl | ho'
      · dsimp only
        omega
      · have := hhead o ho'
        dsimp only
        omega
    · rcases List.mem_cons.mp hf with rfl | hf'
      · left
        rcases List.mem_cons.mp ho with rfl | ho'
        · dsimp only
          omega
        · have := hhead o ho'
          dsimp only
          omega
      · rcases List.mem_cons.mp ho with rfl | ho'
        · right
          obtain ⟨ha, _⟩ := carveLoop_mem e rest _ f hf'
          omega
        · exact ih htail _ f hf' o ho'
    · simp at hf
    · rcases List.mem_cons.mp ho with rfl | ho'
      · right
        obtain ⟨ha, _⟩ := carveLoop_mem e rest s f hf
        omega
      · exact ih htail _ f hf o ho'

/-- Every point of the nominal range is covered by an obstacle or a fragment. -/
theorem carveLoop_cover (e : Nat) (obs : List Section) :
    ∀ s p, s ≤ p → p < e →
      (∃ o ∈ obs, o.address ≤ p ∧ p < o.address + o.size) ∨
        ∃ f ∈ carveLoop e s obs, f.address ≤ p ∧ p < f.address + f.size := by
  induction obs with
  | nil =>
    intro s p hsp hpe
    right
    have hlt : s < e := by omega
    refine ⟨⟨s, e - s⟩, ?_, hsp, ?_⟩
    · simp [carveLoop, hlt]
    · show p < s + (e - s)
      omega
  | cons c rest ih =>
    intro s p hsp hpe
    simp only [carveLoop]
    split_ifs with h1 h2 h2e h3 h3e h4e
    · exact Or.inl ⟨c, List.mem_cons_self c rest, by omega, by omega⟩
    · exact absurd h2e (by omega)
    · by_cases hp : p < c.address + c.size
      · exact Or.inl ⟨c, List.mem_cons_self c rest, by omega, hp⟩
      · rcases ih (c.address + c.size) p (by omega) hpe with ⟨o, ho, hco⟩ | ⟨f, hf, hcf⟩
        · exact Or.inl ⟨o, List.mem_cons_of_mem c ho, hco⟩
        · exact Or.inr ⟨f, hf, hcf⟩
    · by_cases hp : p < c.address
      · refine Or.inr ⟨⟨s, c.address - s⟩, List.mem_singleton_self _, hsp, ?_⟩
        show p < s + (c.address - s)
        omega
      · exact Or.inl ⟨c, List.mem_cons_self c rest, by omega, by omega⟩
    · by_cases hp : p < c.address
      · refine Or.inr ⟨⟨s, c.address - s⟩, List.mem_cons_self _ _, hsp, ?_⟩
        show p < s + (c.address - s)
        omega
      · by_cases hp2 : p < min (c.address + c.size) e
        · exact Or.inl ⟨c, List.mem_cons_self c rest, by omega, by omega⟩
        · rcases ih (min (c.address + c.size) e) p (by omega) hpe with
            ⟨o, ho, hco⟩ | ⟨f, hf, hcf⟩
          · exact Or.inl ⟨o, List.mem_cons_of_mem c ho, hco⟩
          · exact Or.inr ⟨f, List.mem_cons_of_mem _ hf, hcf⟩
    · exact absurd h4e (by omega)
    · rcases ih s p hsp hpe with ⟨o, ho, hco⟩ | ⟨f, hf, hcf⟩
      · exact Or.inl ⟨o, List.mem_cons_of_mem c ho, hco⟩
      · exact Or.inr ⟨f, hf, hcf⟩

/-- Two fragments of a separated list containing a common point are equal. -/
theorem frag_eq_of_contains {l : List BssSection}
    (hl : l.Pairwise fun f g => f.address + f.size ≤ g.address)
    {p : Nat} {f g : BssSection} (hf : f ∈ l) (hg : g ∈ l)
    (hfp : f.address ≤ p ∧ p < f.address + f.size)
    (hgp : g.address ≤ p ∧ p < g.address + g.size) : f = g := by
  by_contra hne
  have hsym : Symmetric fun f g : BssSection =>
      f.address + f.size ≤ g.address ∨ g.address + g.size ≤ f.address :=
    fun _ _ hab => hab.symm
  have h2 : l.Pairwise fun f g : BssSection =>
      f.address + f.size ≤ g.address ∨ g.address + g.size ≤ f.address :=
    hl.imp fun h => Or.inl h
  have := List.Pairwise.forall hsym h2 hf hg hne
  omega

/-! ### Claim theorems -/

/-- C1: the claim fails on the code — this is a bug in the sweep.  With
nominal BSS range `[100, 200)` and a single obstacle at `[300, 400)` (start
at or beyond `current_end = 200`), the "overlap right or contained" branch
fires and emits the fragment `{address 100, size 200}`, i.e. `[100, 300)`:
the obstacle does not leave the fragment list unchanged (the no-obstacle
sweep emits `[100, 200)` instead), and the emitted fragment is not a
sub-interval of the nominal range. -/
theorem spec_c1_bug :
    carve 100 200 [⟨1, 300, 100⟩] = [⟨100, 200⟩] ∧
      carve 100 200 [⟨1, 300, 100⟩] ≠ carve 100 200 [] ∧
      ¬(∀ f ∈ carve 100 200 [⟨1, 300, 100⟩],
          100 ≤ f.address ∧ f.address + f.size ≤ 200) := by
  decide

/-- C2: the carving output partitions the uncovered part of the nominal
range: every point of `[a, b)` lies in some obstacle's extent or in exactly
one emitted fragment; fragments are pairwise non-overlapping, overlap no
obstacle, and are emitted in ascending address order. -/
theorem spec_c2 (a b p : Nat) (obs : List Section) (hap : a ≤ p) (hpb : p < b) :
    ((∃ o ∈ obs, o.address ≤ p ∧ p < o.address + o.size) ∨
        ∃! f, f ∈ carve a b obs ∧ f.address ≤ p ∧ p < f.address + f.size) ∧
      (carve a b obs).Pairwise (fun f g =>
        f.address + f.size ≤ g.address ∨ g.address + g.size ≤ f.address) ∧
      (∀ f ∈ carve a b obs, ∀ o ∈ obs,
        f.address + f.size ≤ o.address ∨ o.address + o.size ≤ f.address) ∧
      (carve a b obs).Pairwise fun f g => f.address < g.address := by
  simp only [carve]
  have hchain := carveLoop_chain b (sortByKey Section.address obs) a
  refine ⟨?_, hchain.imp fun h => Or.inl h, ?_, ?_⟩
  · rcases carveLoop_cover b (sortByKey Section.address obs) a p hap hpb with
      ⟨o, ho, hco⟩ | ⟨f, hf, hcf⟩
    · exact Or.inl ⟨o, (mem_sortByKey Section.address obs o).mp ho, hco⟩
    · refine Or.inr ⟨f, ⟨hf, hcf⟩, fun g hg => ?_⟩
      exact frag_eq_of_contains hchain hg.1 hf hg.2 hcf
  · intro f hf o ho
    exact carveLoop_disjoint b (sortByKey Section.address obs)
      (sortByKey_sorted Section.address obs) a f hf o
      ((mem_sortByKey Section.address obs o).mpr ho)
  · refine pairwise_imp_of_mem (fun f hf g hg hr => ?_) hchain
    obtain ⟨_, hpos⟩ := carveLoop_mem b (sortByKey Section.address obs) a f hf
    omega

/-- C2 witness: with nominal range `[10, 20)` and one obstacle `[12, 15)`,
the point 10 lies in no obstacle, hence in exactly one emitted fragment. -/
theorem spec_c2_witness :
    ∃! f, f ∈ carve 10 20 [⟨1, 12, 3⟩] ∧ f.address ≤ 10 ∧
      10 < f.address + f.size :=
  ((spec_c2 10 20 10 [⟨1, 12, 3⟩] (by decide) (by decide)).1).resolve_left
    (by decide)

theorem sectionsInFile_mono (h : Header) {fs fs' : Nat} (hle : fs ≤ fs')
    (hv : sectionsInFile h fs = true) : sectionsInFile h fs' = true := by
  rw [sectionsInFile, List.all_eq_true] at hv ⊢
  intro s hs
  have := hv s hs
  simp only [decide_eq_true_eq] at this ⊢
  omega

set_option maxRecDepth 40000 in
/-- C3 counterexample: the claim that a short input is reported through a
distinct outcome fails — `is_valid_for_data` yields the very same `false` on
an empty input as on a full-size structurally invalid image (all-zero header:
no text sections). -/
theorem spec_c3_cex :
    is_valid_for_data [] = false ∧
      is_valid_for_data (List.replicate 0xe4 0) = false ∧
      is_valid_for_data [] = is_valid_for_data (List.replicate 0xe4 0) := by
  refine ⟨by decide, by decide, ?_⟩
  decide

/-- C3 amended: an input shorter than 0xE4 bytes is rejected by an early
return in `is_valid_for_data`, but through the same boolean `false` used for
a structurally invalid image — the two outcomes are not distinguishable at
the caller-facing interface. -/
theorem spec_c3 (data : List Nat) (hshort : data.length < 0xe4) :
    is_valid_for_data data = false := by
  have hlen : (data.take 0xe4).length < 0xe4 := by
    simp only [List.length_take]
    omega
  simp only [is_valid_for_data]
  rw [if_pos hlen]

/-- C3 witness: the empty input is rejected. -/
theorem spec_c3_witness : is_valid_for_data [] = false :=
  spec_c3 [] (by decide)

/-- C4 counterexample: a header whose single text section has size zero
passes every validator check except the entrypoint check, its entrypoint
equals that section's address, and yet it is rejected — the acceptance half
of the claim fails for zero-size text sections. -/
theorem spec_c4_cex :
    (∃ s ∈ hdrZ.textSections, hdrZ.entrypoint = s.address) ∧
      hasTextSection hdrZ = true ∧ sectionsInFile hdrZ 0x200 = true ∧
      sectionsInMemory hdrZ = true ∧ noOffsetOverlap hdrZ = true ∧
      noAddressOverlap hdrZ = true ∧ validateHeader hdrZ 0x200 = false := by
  decide

/-- C4 amended: the entrypoint check uses the half-open extent of text
sections.  A header whose entrypoint equals some text section's
`address + size` (one past the end) and lies in no other text section is
rejected; a header whose entrypoint equals the address of a text section of
positive size is accepted provided all other validator checks pass (for a
zero-size section the half-open extent is empty, so such an entrypoint is
rejected, see `spec_c4_cex`). -/
theorem spec_c4 :
    (∀ (h : Header) (filesize : Nat) (s : Section), s ∈ h.textSections →
      h.entrypoint = s.address + s.size →
      (∀ t ∈ h.textSections, t ≠ s →
        ¬(t.address ≤ h.entrypoint ∧ h.entrypoint < t.address + t.size)) →
      validateHeader h filesize = false) ∧
    (∀ (h : Header) (filesize : Nat) (s : Section), s ∈ h.textSections →
      h.entrypoint = s.address → 0 < s.size →
      hasTextSection h = true → sectionsInFile h filesize = true →
      sectionsInMemory h = true → noOffsetOverlap h = true →
      noAddressOverlap h = true → validateHeader h filesize = true) := by
  constructor
  · intro h filesize s hs he hother
    have hent : entrypointInText h = false := by
      rw [entrypointInText, List.any_eq_false]
      intro t ht
      simp only [decide_eq_true_eq]
      by_cases hts : t = s
      · subst hts
        omega
      · exact hother t ht hts
    rw [validateHeader, hent]
    simp
  · intro h filesize s hs he hsize h1 h2 h3 h4 h5
    have hent : entrypointInText h = true := by
      rw [entrypointInText, List.any_eq_true]
      refine ⟨s, hs, ?_⟩
      rw [decide_eq_true_eq]
      omega
    rw [validateHeader, h1, h2, h3, h4, h5, hent]
    rfl

/-- C4 witness: an entrypoint one past the end of the only text section is
rejected; an entrypoint at the start of a positive-size text section is
accepted. -/
theorem spec_c4_witness :
    validateHeader hdrPastEnd 0x400 = false ∧
      validateHeader hdrAtStart 0x400 = true :=
  ⟨spec_c4.1 hdrPastEnd 0x400 ⟨0x100, 0x80003100, 0x200⟩ (by decide)
      (by decide) (by decide),
    spec_c4.2 hdrAtStart 0x400 ⟨0x100, 0x80003100, 0x200⟩ (by decide)
      (by decide) (by decide) (by decide) (by decide) (by decide) (by decide)
      (by decide)⟩

/-- C5: the validator is monotone in the file size — enlarging the file
cannot invalidate a header, since only the offset-in-file check reads the
file size and it is upward closed. -/
theorem spec_c5 (h : Header) (fs fs' : Nat) (hlt : fs < fs')
    (hv : validateHeader h fs = true) : validateHeader h fs' = true := by
  simp only [validateHeader, Bool.and_eq_true] at hv ⊢
  exact ⟨⟨⟨⟨⟨hv.1.1.1.1.1, sectionsInFile_mono h (by omega) hv.1.1.1.1.2⟩,
    hv.1.1.1.2⟩, hv.1.1.2⟩, hv.1.2⟩, hv.2⟩

/-- C5 witness: the example layout valid at file size 0x400 stays valid at
0x401. -/
theorem spec_c5_witness : validateHeader exHeaderOk 0x401 = true :=
  spec_c5 exHeaderOk 0x400 0x401 (by decide) (by decide)

/-- C6: section-table decoding stops at the first zero offset: if slot `i`
is the first slot whose offset field is zero, decode returns exactly the
first `i` slots, in order, with offset/address/size taken from the same
index of the three parallel arrays — independently of the slots after `i`. -/
theorem spec_c6 (offs addrs szs : List Nat) (i : Nat)
    (hla : offs.length = addrs.length) (hls : offs.length = szs.length)
    (hi : i < offs.length) (hzero : offs.getD i 0 = 0)
    (hnz : ∀ j, j < i → offs.getD j 0 ≠ 0) :
    parseSections offs addrs szs =
      (List.range i).map fun j => ⟨offs.getD j 0, addrs.getD j 0, szs.getD j 0⟩ := by
  induction offs generalizing addrs szs i with
  | nil => simp at hi
  | cons o os ih =>
    cases addrs with
    | nil => simp at hla
    | cons a as2 =>
      cases szs with
      | nil => simp at hls
      | cons z ss =>
        cases i with
        | zero =>
          have ho : o = 0 := by simpa using hzero
          simp [parseSections, ho]
        | succ j =>
          have ho : o ≠ 0 := by
            have := hnz 0 (Nat.succ_pos j)
            simpa using this
          simp only [parseSections, if_neg ho]
          rw [List.range_succ_eq_map, List.map_cons, List.map_map]
          have htail := ih as2 ss j (by simpa using hla) (by simpa using hls)
            (by simpa using hi) (by simpa using hzero)
            (fun j' hj' => by simpa using hnz (j' + 1) (by omega))
          rw [htail]
          rfl

/-- C6 witness: a table with first zero offset at slot 2 decodes to exactly
the first two slots, ignoring the nonzero slot 3. -/
theorem spec_c6_witness :
    parseSections [1, 2, 0, 5] [10, 20, 30, 40] [100, 200, 300, 400] =
      [⟨1, 10, 100⟩, ⟨2, 20, 200⟩] := by
  rw [spec_c6 [1, 2, 0, 5] [10, 20, 30, 40] [100, 200, 300, 400] 2 rfl rfl
    (by decide) (by decide) (by decide)]
  decide

/-- C7: a zero decoded BSS address yields an empty BSS list; a nonzero BSS
address with no text or data sections yields the single fragment
`[bssAddress, bssAddress + bssSize)`, or no fragment when `bssSize = 0`. -/
theorem spec_c7 (data : List Nat) :
    (word data 0xd8 = 0 → (parseHeaderCore data).bssSections = []) ∧
      (word data 0xd8 ≠ 0 → (parseHeaderCore data).textSections = [] →
        (parseHeaderCore data).dataSections = [] →
        (parseHeaderCore data).bssSections =
          if word data 0xdc = 0 then []
          else [⟨word data 0xd8, word data 0xdc⟩]) := by
  constructor
  · intro h0
    simp [parseHeaderCore, h0]
  · intro hne ht hd
    simp only [parseHeaderCore] at ht hd ⊢
    rw [if_pos hne, ht, hd]
    simp only [List.append_nil]
    rw [carve]
    simp only [sortByKey, carveLoop]
    by_cases hz : word data 0xdc = 0
    · rw [if_pos hz, if_neg (by omega)]
    · rw [if_neg hz, if_pos (by omega)]
      simp

/-- C7 witness: an all-zero header has no BSS sections; a header declaring
only BSS address 1 and BSS size 2 decodes to the single BSS fragment
`[1, 3)`. -/
theorem spec_c7_witness :
    (parseHeaderCore (List.replicate 0xe4 0)).bssSections = [] ∧
      (parseHeaderCore bufBssOnly).bssSections = [⟨1, 2⟩] := by
  constructor
  · exact (spec_c7 (List.replicate 0xe4 0)).1 (by decide)
  · have h := (spec_c7 bufBssOnly).2 (by decide) (by decide) (by decide)
    rw [h]
    decide

/-- C8: decoding is total — every buffer of at least 0xE4 bytes decodes
without a failure path, to the header computed by `parseHeaderCore`. -/
theorem spec_c8 (data : List Nat) (hlen : 0xe4 ≤ data.length) :
    parseHeader data = some (parseHeaderCore data) := by
  rw [parseHeader, if_neg (by omega)]

/-- C8 witness: the all-zero buffer of exactly 0xE4 bytes decodes. -/
theorem spec_c8_witness :
    parseHeader (List.replicate 0xe4 0) =
      some (parseHeaderCore (List.replicate 0xe4 0)) :=
  spec_c8 (List.replicate 0xe4 0) (by rw [List.length_replicate])

theorem word_congr {d1 d2 : List Nat}
    (hagree : ∀ i, i < 0xe4 → d1.getD i 0 = d2.getD i 0) {off : Nat}
    (hoff : off + 4 ≤ 0xe4) : word d1 off = word d2 off := by
  unfold word byteAt
  rw [hagree off (by omega), hagree (off + 1) (by omega),
    hagree (off + 2) (by omega), hagree (off + 3) (by omega)]

/-- C10: decoding depends only on the first 0xE4 bytes — two sufficiently
long buffers agreeing on bytes 0 through 0xE3 decode to identical headers. -/
theorem spec_c10 (d1 d2 : List Nat) (h1 : 0xe4 ≤ d1.length)
    (h2 : 0xe4 ≤ d2.length)
    (hagree : ∀ i, i < 0xe4 → d1.getD i 0 = d2.getD i 0) :
    parseHeader d1 = parseHeader d2 := by
  rw [parseHeader, parseHeader, if_neg (by omega), if_neg (by omega)]
  have hw : ∀ off : Nat, off + 4 ≤ 0xe4 → word d1 off = word d2 off :=
    fun _ hoff => word_congr hagree hoff
  have m7 : ∀ base : Nat, base + 28 ≤ 0xe4 →
      ((List.range 7).map fun i => word d1 (base + 4 * i)) =
        (List.range 7).map fun i => word d2 (base + 4 * i) := by
    intro base hbase
    refine List.map_congr_left fun i hi => ?_
    rw [List.mem_range] at hi
    exact hw (base + 4 * i) (by omega)
  have m11 : ∀ base : Nat, base + 44 ≤ 0xe4 →
      ((List.range 11).map fun i => word d1 (base + 4 * i)) =
        (List.range 11).map fun i => word d2 (base + 4 * i) := by
    intro base hbase
    refine List.map_congr_left fun i hi => ?_
    rw [List.mem_range] at hi
    exact hw (base + 4 * i) (by omega)
  simp only [parseHeaderCore]
  rw [m7 0x00 (by omega), m11 0x1c (by omega), m7 0x48 (by omega),
    m11 0x64 (by omega), m7 0x90 (by omega), m11 0xac (by omega),
    hw 0xd8 (by omega), hw 0xdc (by omega), hw 0xe0 (by omega)]

set_option maxRecDepth 40000 in
/-- C10 witness: the all-zero buffers of lengths 0xE4 and 0xE5 agree on the
header bytes and decode identically. -/
theorem spec_c10_witness :
    parseHeader (List.replicate 0xe4 0) = parseHeader (List.replicate 0xe5 0) :=
  spec_c10 (List.replicate 0xe4 0) (List.replicate 0xe5 0)
    (by rw [List.length_replicate]) (by rw [List.length_replicate]; omega)
    (by decide)

end Dol
